import Mathlib

/-!
Verification of the diff-positioning and comment-validation core of an
automated code-review service.  The Python sources (`app/utils.py`,
`app/github_services.py`) are shallowly embedded: strings are Lean
`String`s, Python `dict`s are insertion-ordered association lists, and the
similarity function of the external `difflib` library is an explicit
parameter of the resolver.
-/

/-- Python whitespace characters recognised by `str.strip()`. -/
def isPySpace (c : Char) : Bool :=
  decide (c = ' ') || decide (c = '\t') || decide (c = '\n') || decide (c = '\r') ||
  decide (c = '\x0b') || decide (c = '\x0c')

/-- Python `str.strip()`: remove leading and trailing whitespace. -/
def pyStrip (s : String) : String :=
  ⟨((s.data.dropWhile isPySpace).reverse.dropWhile isPySpace).reverse⟩

/-- Python `str.strip(c)` for a single character `c`. -/
def pyStripChar (c : Char) (s : String) : String :=
  ⟨((s.data.dropWhile (fun x => decide (x = c))).reverse.dropWhile
      (fun x => decide (x = c))).reverse⟩

/-- Python `str.startswith`. -/
def pyStartsWith (s pre : String) : Bool :=
  pre.data.isPrefixOf s.data

/-- Python `str.endswith`. -/
def pyEndsWith (s suffixStr : String) : Bool :=
  suffixStr.data.isSuffixOf s.data

/-- Python `s[n:]` on strings (drop the first `n` characters). -/
def pyDrop (s : String) (n : Nat) : String :=
  ⟨s.data.drop n⟩

/-- Python `a or b` on strings: `a` if non-empty, else `b`. -/
def pyOrS (a b : String) : String :=
  if a = "" then b else a

/-- Worker for `pySplitlines`, accumulating the current line reversed. -/
def splitlinesGo : List Char → List Char → List String
  | [], acc => if acc.isEmpty then [] else [⟨acc.reverse⟩]
  | '\r' :: '\n' :: rest, acc => ⟨acc.reverse⟩ :: splitlinesGo rest []
  | '\r' :: rest, acc => ⟨acc.reverse⟩ :: splitlinesGo rest []
  | '\n' :: rest, acc => ⟨acc.reverse⟩ :: splitlinesGo rest []
  | c :: rest, acc => splitlinesGo rest (c :: acc)

/-- Python `str.splitlines()` restricted to the terminators `\n`, `\r`,
`\r\n` (the ones occurring in unified diff text); a trailing terminator
produces no empty final line. -/
def pySplitlines (s : String) : List String :=
  splitlinesGo s.data []

/-- Insertion into an insertion-ordered Python `dict`: replace in place if
the key is present, append otherwise. -/
def pyDictInsert {α β : Type} [DecidableEq α] : List (α × β) → α → β → List (α × β)
  | [], k, v => [(k, v)]
  | (k', v') :: rest, k, v =>
    if k' = k then (k, v) :: rest else (k', v') :: pyDictInsert rest k v

/-- Python `dict.get`: value of the first (and, for dicts built with
`pyDictInsert`, only) entry holding the key. -/
def pyDictGet {α β : Type} [DecidableEq α] : List (α × β) → α → Option β
  | [], _ => none
  | (k', v) :: rest, k => if k' = k then some v else pyDictGet rest k

/-- Numeric value of a digit run. -/
def natFromDigits (ds : List Char) : Nat :=
  ds.foldl (fun n c => n * 10 + (c.toNat - '0'.toNat)) 0

/-- Match a literal character sequence at the front of the input. -/
def chompChars : List Char → List Char → Option (List Char)
  | [], cs => some cs
  | _ :: _, [] => none
  | p :: ps, c :: cs => if c = p then chompChars ps cs else none

/-- Consume an optional `,digits` group (as in the hunk-header regex
`(?:,\d+)?`): taken only when a comma directly followed by a digit is
present. -/
def optCommaDigits (cs : List Char) : List Char :=
  match cs with
  | ',' :: rest =>
    match rest with
    | d :: _ => if d.isDigit then rest.dropWhile Char.isDigit else cs
    | [] => cs
  | _ => cs

/-- The hunk-header regex `@@ -(?P<old>\d+)(?:,\d+)? \+(?P<new>\d+)(?:,\d+)? @@`
applied with `re.match` (anchored at the start, trailing text allowed);
returns `(old, new)` start line numbers. -/
def parseHunkHeader (line : String) : Option (Nat × Nat) :=
  match chompChars ['@', '@', ' ', '-'] line.data with
  | none => none
  | some r1 =>
    let ds1 := r1.takeWhile Char.isDigit
    if ds1.isEmpty then none
    else
      let r2 := optCommaDigits (r1.dropWhile Char.isDigit)
      match chompChars [' ', '+'] r2 with
      | none => none
      | some r3 =>
        let ds2 := r3.takeWhile Char.isDigit
        if ds2.isEmpty then none
        else
          let r4 := optCommaDigits (r3.dropWhile Char.isDigit)
          match chompChars [' ', '@', '@'] r4 with
          | none => none
          | some _ => some (natFromDigits ds1, natFromDigits ds2)

/-- Cursor state of the diff-scanning loop in `enumerate_added_new_lines`,
with the accumulated record of added lines abstracted in `mapping`. -/
structure EnumSt where
  mapping : List (Nat × String)
  new_cursor : Option Nat
  old_cursor : Option Nat

/-- One iteration of the loop body of `enumerate_added_new_lines`
(`app/utils.py`), parameterised by the operation `record` used to store an
added line, so that the actual dict update and a ghost list of added lines
can be proved to run in lockstep. -/
def diffStep (record : List (Nat × String) → Nat → String → List (Nat × String))
    (st : EnumSt) (raw_line : String) : EnumSt :=
  if pyStartsWith raw_line "@@" then
    match parseHunkHeader raw_line with
    | none => ⟨st.mapping, none, none⟩
    | some (o, n) => ⟨st.mapping, some n, some o⟩
  else
    match st.new_cursor with
    | none => st
    | some nc =>
      if pyStartsWith raw_line "+" && !pyStartsWith raw_line "+++" then
        ⟨record st.mapping nc (pyDrop raw_line 1), some (nc + 1), st.old_cursor⟩
      else if pyStartsWith raw_line "-" && !pyStartsWith raw_line "---" then
        ⟨st.mapping, some nc, st.old_cursor.map (· + 1)⟩
      else if pyStartsWith raw_line " " then
        ⟨st.mapping, some (nc + 1), st.old_cursor.map (· + 1)⟩
      else if pyStartsWith raw_line "\\" then st
      else ⟨st.mapping, some (nc + 1), st.old_cursor⟩

/-- The loop of `enumerate_added_new_lines` over an explicit list of lines,
recording added lines with the Python dict update. -/
def enumLines (ls : List String) : List (Nat × String) :=
  (ls.foldl (diffStep (fun d k v => pyDictInsert d k v)) ⟨[], none, none⟩).mapping

/-- Embedding of `enumerate_added_new_lines` (`app/utils.py`): mapping of new-file line
number to added-line text (leading `+` removed) for a unified diff chunk. -/
def enumerate_added_new_lines (unidiff : String) : List (Nat × String) :=
  if unidiff = "" then [] else enumLines (pySplitlines unidiff)

/-- Ghost companion of `enumerate_added_new_lines`: the same scan, but
recording every added line as an appended `(new_line, text)` pair instead of
a dict update, so repeated line numbers stay visible. -/
def addedPairs (unidiff : String) : List (Nat × String) :=
  if unidiff = "" then []
  else ((pySplitlines unidiff).foldl (diffStep (fun d k v => d ++ [(k, v)]))
          ⟨[], none, none⟩).mapping

/-- Replay a list of recorded `(line, text)` pairs as Python dict updates. -/
def dictFold (ps : List (Nat × String)) : List (Nat × String) :=
  ps.foldl (fun d kv => pyDictInsert d kv.1 kv.2) []

namespace Utils

/-- Loop state of `compute_patch_newline_to_position` in `app/utils.py`. -/
structure PosSt where
  mapping : List (Nat × Nat)
  position : Nat
  new_cursor : Option Nat
  first_hunk_found : Bool

/-- One iteration of the loop of `compute_patch_newline_to_position`
(`app/utils.py`): header lines are consumed before the position counter is
touched, so no `@@` line is ever counted. -/
def posStep (st : PosSt) (line : String) : PosSt :=
  if pyStartsWith line "@@" then
    match parseHunkHeader line with
    | some (_, n) => ⟨st.mapping, st.position, some n, true⟩
    | none => st
  else if !st.first_hunk_found || st.new_cursor.isNone then st
  else
    match st.new_cursor with
    | none => st
    | some nc =>
      let position := st.position + 1
      if pyStartsWith line "+" && !pyStartsWith line "+++" then
        ⟨pyDictInsert st.mapping nc position, position, some (nc + 1), st.first_hunk_found⟩
      else if pyStartsWith line " " || pyStartsWith line "\\" then
        ⟨st.mapping, position, some (nc + 1), st.first_hunk_found⟩
      else
        ⟨st.mapping, position, some nc, st.first_hunk_found⟩

/-- Embedding of `compute_patch_newline_to_position` (`app/utils.py`): new-file line
number to running position within the patch. -/
def compute_patch_newline_to_position (patch : String) : List (Nat × Nat) :=
  if patch = "" then []
  else ((pySplitlines patch).foldl posStep ⟨[], 0, none, false⟩).mapping

/-- Embedding of `compute_github_position_from_patch` (`app/utils.py`). -/
def compute_github_position_from_patch (patch : String) (new_line : Nat) : Option Nat :=
  pyDictGet (compute_patch_newline_to_position patch) new_line

end Utils

namespace GithubServices

/-- Loop state of `compute_patch_newline_to_position` in
`app/github_services.py`. -/
structure PosSt where
  mapping : List (Nat × Nat)
  position : Nat
  new_cursor : Option Nat

/-- One iteration of the loop of `compute_patch_newline_to_position`
(`app/github_services.py`): the position counter is incremented first for
every physical line, header lines included. -/
def posStep (st : PosSt) (raw_line : String) : PosSt :=
  let position := st.position + 1
  if pyStartsWith raw_line "@@" then
    match parseHunkHeader raw_line with
    | some (_, n) => ⟨st.mapping, position, some n⟩
    | none => ⟨st.mapping, position, none⟩
  else
    match st.new_cursor with
    | none => ⟨st.mapping, position, st.new_cursor⟩
    | some nc =>
      if pyStartsWith raw_line "+" && !pyStartsWith raw_line "+++" then
        ⟨pyDictInsert st.mapping nc position, position, some (nc + 1)⟩
      else if pyStartsWith raw_line " " || pyStartsWith raw_line "\\" then
        ⟨st.mapping, position, some (nc + 1)⟩
      else
        ⟨st.mapping, position, some nc⟩

/-- Embedding of `compute_patch_newline_to_position` (`app/github_services.py`). -/
def compute_patch_newline_to_position (patch : String) : List (Nat × Nat) :=
  if patch = "" then []
  else ((pySplitlines patch).foldl posStep ⟨[], 0, none⟩).mapping

end GithubServices

/-- The backquote character, used by `_extract_inline_code_from_body`. -/
def backquote : Char := Char.ofNat 96

/-- Scan for the first backtick-delimited non-empty substring, mirroring the
leftmost match of the regex used in `_extract_inline_code_from_body`: an
opening backtick whose enclosed text is empty cannot match, so scanning
resumes at the closing backtick. -/
def scanBacktick : List Char → Option (List Char)
  | [] => none
  | c :: rest =>
    if c = backquote then
      match rest.dropWhile (fun x => decide (x ≠ backquote)) with
      | [] => none
      | _ :: _ =>
        let content := rest.takeWhile (fun x => decide (x ≠ backquote))
        if content.isEmpty then scanBacktick rest else some content
    else scanBacktick rest

/-- Embedding of `_extract_inline_code_from_body` (`app/utils.py`): first backtick-quoted
fragment of the body, stripped. -/
def extract_inline_code_from_body (body : String) : Option String :=
  if body = "" then none
  else
    match scanBacktick body.data with
    | some cs => some (pyStrip ⟨cs⟩)
    | none => none

/-- Anchor text used by `find_best_line`:
`(code_hint or _extract_inline_code_from_body(body) or "").strip()`. -/
def resolveTarget (code_hint body : String) : String :=
  pyStrip (pyOrS code_hint (pyOrS ((extract_inline_code_from_body body).getD "") ""))

/-- Exact-match candidates of `find_best_line`: keys whose stripped text
equals the target, in map order. -/
def exactCandidates (added : List (Nat × String)) (code_hint body : String) : List Nat :=
  ((added.filter (fun kv => decide (pyStrip kv.2 = resolveTarget code_hint body))).map
    Prod.fst)

/-- Python `min(xs, key=f)` on a non-empty list `x :: xs`: the first element
attaining the minimal key. -/
def pyMinByNe (f : Nat → Nat) (x : Nat) (xs : List Nat) : Nat :=
  xs.foldl (fun best y => if f y < f best then y else best) x

/-- The fuzzy-match loop of `find_best_line`: running best line and best
ratio, updated when a ratio exceeds both the `0.92` threshold and the best
so far. -/
def fuzzyLoop (ratio : String → String → ℚ) (target : String) :
    List (Nat × String) → Option Nat → ℚ → Option Nat
  | [], best, _ => best
  | (ln, txt) :: rest, best, bestRatio =>
    let r := ratio (pyStrip txt) target
    if 23/25 < r ∧ bestRatio < r then fuzzyLoop ratio target rest (some ln) r
    else fuzzyLoop ratio target rest best bestRatio

/-- Embedding of `find_best_line` (nested in `validate_ai_comments_against_changes`,
`app/utils.py`).  The normalized similarity of `difflib.SequenceMatcher`,
an external library, is passed in as the `ratio` parameter; the threshold
`0.92` is the rational `23/25`. -/
def find_best_line (ratio : String → String → ℚ) (added : List (Nat × String))
    (desired_line : Int) (code_hint : String) (body : String) : Option Nat :=
  let target := resolveTarget code_hint body
  if target = "" then none
  else
    match exactCandidates added code_hint body with
    | c :: cs =>
      if desired_line > 0 then
        some (pyMinByNe (fun ln => ((ln : Int) - desired_line).natAbs) c cs)
      else some c
    | [] => fuzzyLoop ratio target added none 0

/-- The constant `MAX_INLINE_COMMENTS` (`app/utils.py`). -/
def MAX_INLINE_COMMENTS : Nat := 3

/-- A model-produced comment after `parse_ai_json_comments` has shaped it:
`{new_path, new_line, body, code}`. -/
structure Candidate where
  new_path : String
  new_line : Int
  body : String
  code : String
deriving DecidableEq

/-- One change object handed to `validate_ai_comments_against_changes`.
Only string fields are consulted, always through truthiness-aware lookups,
so an absent field is modelled by the empty string. -/
structure Change where
  new_path : String
  new_file_path : String
  new_pathname : String
  old_path : String
  diff : String
  filename : String
  previous_filename : String
  patch : String
deriving DecidableEq

/-- A GitLab-style change record: `{new_path, diff}`. -/
def gitlabChange (new_path diff : String) : Change :=
  ⟨new_path, "", "", "", diff, "", "", ""⟩

/-- A GitHub-style file record: `{filename, patch}`. -/
def githubFileChange (filename patch : String) : Change :=
  ⟨"", "", "", "", "", filename, "", patch⟩

/-- A validated comment as emitted by the pipeline; `position` is present
exactly in GitHub (absolute-addressing) mode. -/
structure ValidatedComment where
  new_path : String
  new_line : Nat
  position : Option Nat
  body : String
deriving DecidableEq

/-- Path used for a GitLab change:
`ch.get("new_path") or ch.get("new_file_path") or ch.get("new_pathname") or ch.get("old_path")`. -/
def gitlabPath (ch : Change) : String :=
  pyOrS ch.new_path (pyOrS ch.new_file_path (pyOrS ch.new_pathname ch.old_path))

/-- Path used for a GitHub file record:
`f.get("filename") or f.get("previous_filename") or ""`. -/
def githubPath (f : Change) : String :=
  pyOrS f.filename (pyOrS f.previous_filename "")

/-- The `path_to_added` dictionary built at the top of
`validate_ai_comments_against_changes`: line maps keyed by path. -/
def buildPathToAdded (changes : List Change) (platform : String) :
    List (String × List (Nat × String)) :=
  if platform = "gitlab" then
    changes.foldl
      (fun m ch =>
        let path := gitlabPath ch
        if path = "" then m
        else pyDictInsert m path (enumerate_added_new_lines ch.diff)) []
  else if platform = "github" then
    changes.foldl
      (fun m f =>
        let path := githubPath f
        if path = "" then m
        else if f.patch = "" then m
        else pyDictInsert m path (enumerate_added_new_lines f.patch)) []
  else []

/-- The `path_to_patch` dictionary (GitHub mode only): raw patch text keyed
by path. -/
def buildPathToPatch (changes : List Change) (platform : String) :
    List (String × String) :=
  if platform = "github" then
    changes.foldl
      (fun m f =>
        let path := githubPath f
        if path = "" then m
        else if f.patch = "" then m
        else pyDictInsert m path f.patch) []
  else []

/-- Line-map selection of the pipeline: the exact path's map if it is
present and non-empty (`if not added_map` treats an empty map like a missing
one), else the first known path related to the candidate path by suffix;
returns the possibly rewritten path together with the chosen map, the empty
map standing for an unresolved candidate. -/
def lookupAddedMap (ptAdded : List (String × List (Nat × String))) (path : String) :
    String × List (Nat × String) :=
  let added0 := (pyDictGet ptAdded path).getD []
  if added0 = [] then
    match ptAdded.find? (fun kv => pyEndsWith kv.1 path || pyEndsWith path kv.1) with
    | some kv => (kv.1, (pyDictGet ptAdded kv.1).getD [])
    | none => (path, [])
  else (path, added0)

/-- The body of the candidate loop of `validate_ai_comments_against_changes`
for a single candidate: `none` models `continue`. -/
def processCandidate (ratio : String → String → ℚ)
    (ptAdded : List (String × List (Nat × String)))
    (ptPatch : List (String × String)) (platform : String) (c : Candidate) :
    Option ValidatedComment :=
  let path := c.new_path
  let body := pyStrip c.body
  let line := c.new_line
  let code_hint := pyStrip c.code
  if path = "" ∨ body = "" then none
  else
    let pm := lookupAddedMap ptAdded path
    if pm.2 = [] then none
    else
      match find_best_line ratio pm.2 line code_hint body with
      | none => none
      | some best_line =>
        if platform = "github" then
          let patch := (pyDictGet ptPatch pm.1).getD ""
          match Utils.compute_github_position_from_patch patch best_line with
          | none => none
          | some position => some ⟨pm.1, best_line, some position, body⟩
        else some ⟨pm.1, best_line, none, body⟩

/-- The candidate loop of `validate_ai_comments_against_changes`, including
the `break` once `MAX_INLINE_COMMENTS` comments have been emitted. -/
def validateLoop (ratio : String → String → ℚ)
    (ptAdded : List (String × List (Nat × String)))
    (ptPatch : List (String × String)) (platform : String) :
    List Candidate → List ValidatedComment → List ValidatedComment
  | [], valid => valid
  | c :: rest, valid =>
    match processCandidate ratio ptAdded ptPatch platform c with
    | none => validateLoop ratio ptAdded ptPatch platform rest valid
    | some v =>
      let valid2 := valid ++ [v]
      if MAX_INLINE_COMMENTS ≤ valid2.length then valid2
      else validateLoop ratio ptAdded ptPatch platform rest valid2

/-- Embedding of `validate_ai_comments_against_changes` (`app/utils.py`). -/
def validate_ai_comments_against_changes (ratio : String → String → ℚ)
    (ai_comments : List Candidate) (changes : List Change) (platform : String) :
    List ValidatedComment :=
  validateLoop ratio (buildPathToAdded changes platform)
    (buildPathToPatch changes platform) platform ai_comments []

/-- A degenerate similarity function (never above the threshold), used to
instantiate the `ratio` parameter on concrete runs that stay in the exact
branch. -/
def ratioZero : String → String → ℚ := fun _ _ => 0

/-- A JSON value as decoded by `json.loads` (number literals restricted to
integers, the only numbers relevant here). -/
inductive JValue where
  | null
  | jbool (b : Bool)
  | jint (n : Int)
  | jstr (s : String)
  | jarr (xs : List JValue)
  | jobj (fields : List (String × JValue))

/-- Python truthiness of a decoded JSON value. -/
def pyTruthy : JValue → Bool
  | .null => false
  | .jbool b => b
  | .jint n => decide (n ≠ 0)
  | .jstr s => decide (s ≠ "")
  | .jarr xs => !xs.isEmpty
  | .jobj kvs => !kvs.isEmpty

/-- Python `a or b` on decoded JSON values. -/
def pyOr (a b : JValue) : JValue :=
  if pyTruthy a then a else b

/-- Python `int(s)` on a string: optional sign and a non-empty digit run
after stripping whitespace, every other string raising `ValueError`. -/
def pyIntOfString (s : String) : Except String Int :=
  let cs := (pyStrip s).data
  let signed : Bool × List Char :=
    match cs with
    | '-' :: r => (true, r)
    | '+' :: r => (false, r)
    | r => (false, r)
  if !signed.2.isEmpty && signed.2.all Char.isDigit then
    .ok (if signed.1 then -(natFromDigits signed.2 : Int) else (natFromDigits signed.2 : Int))
  else .error ("ValueError: invalid literal for int() with base 10: " ++ s)

/-- Python `int(x)` on a decoded JSON value: raises (`Except.error`) on
`None`, non-numeric strings, lists and dicts. -/
def pyIntCast : JValue → Except String Int
  | .jint n => .ok n
  | .jbool b => .ok (if b then 1 else 0)
  | .jstr s => pyIntOfString s
  | .null => .error "TypeError: int() argument is None"
  | .jarr _ => .error "TypeError: int() argument is a list"
  | .jobj _ => .error "TypeError: int() argument is a dict"

mutual

/-- Python `repr` of a decoded JSON value, as used by `str` on containers. -/
def pyReprJ : JValue → String
  | .null => "None"
  | .jbool true => "True"
  | .jbool false => "False"
  | .jint n => toString n
  | .jstr s => "\x27" ++ s ++ "\x27"
  | .jarr xs => "[" ++ pyReprList xs ++ "]"
  | .jobj kvs => "\x7b" ++ pyReprFields kvs ++ "\x7d"

/-- Comma-joined `repr`s of list elements. -/
def pyReprList : List JValue → String
  | [] => ""
  | [x] => pyReprJ x
  | x :: rest => pyReprJ x ++ ", " ++ pyReprList rest

/-- Comma-joined `repr`s of dict entries. -/
def pyReprFields : List (String × JValue) → String
  | [] => ""
  | [(k, v)] => "\x27" ++ k ++ "\x27: " ++ pyReprJ v
  | (k, v) :: rest => "\x27" ++ k ++ "\x27: " ++ pyReprJ v ++ ", " ++ pyReprFields rest

end

/-- Python `str(x)` on a decoded JSON value. -/
def pyStrCast : JValue → String
  | .jstr s => s
  | .jint n => toString n
  | .jbool true => "True"
  | .jbool false => "False"
  | .null => "None"
  | .jarr xs => pyReprJ (.jarr xs)
  | .jobj kvs => pyReprJ (.jobj kvs)

/-- Embedding of `_map_comment` (nested in `parse_ai_json_comments`, `app/utils.py`):
shape one decoded comment dict; the `int(...)` coercion of `new_line` can
raise, which the surrounding function does not catch. -/
def map_comment (c : List (String × JValue)) : Except String Candidate :=
  let code :=
    match pyDictGet c "code" with
    | some (.jstr s) => pyStrip s
    | _ => ""
  match pyIntCast (pyOr ((pyDictGet c "new_line").getD (.jint 0)) (.jint 0)) with
  | .error e => .error e
  | .ok n =>
    .ok ⟨pyStrCast ((pyDictGet c "new_path").getD (.jstr "")), n,
         pyStrip (pyStrCast ((pyDictGet c "body").getD (.jstr ""))), code⟩

/-- Keep only the decoded dicts of a list (`if isinstance(c, dict)`). -/
def jsonObjFields : JValue → Option (List (String × JValue))
  | .jobj kvs => some kvs
  | _ => none

/-- The comprehension `[_map_comment(c) for c in cs if isinstance(c, dict)]`, an exception in
any element propagating. -/
def mapComments (cs : List JValue) : Except String (List Candidate) :=
  (cs.filterMap jsonObjFields).mapM map_comment

/-- Dispatch of `parse_ai_json_comments` on the decoded value: a dict with a
`comments` list, a bare list, or anything else (empty result). -/
def commentsOfJson : JValue → Except String (List Candidate)
  | .jobj kvs =>
    match pyDictGet kvs "comments" with
    | some (.jarr cs) => mapComments cs
    | _ => .ok []
  | .jarr cs => mapComments cs
  | _ => .ok []

/-- Text following the first newline, or the whole string when it has none:
`s.split("\n", 1)[-1]`. -/
def afterFirstNewline (s : String) : String :=
  let rest := s.data.dropWhile (fun c => decide (c ≠ '\n'))
  match rest with
  | [] => s
  | _ :: r => ⟨r⟩

/-- The substring from the first opening brace to the last closing brace,
i.e. the match of the regex used to pull a JSON object out of surrounding
prose. -/
def extractBraced (s : String) : Option String :=
  match s.data.findIdx? (fun c => decide (c = '\x7b')) with
  | none => none
  | some i =>
    let tailLen := (s.data.drop i).reverse.dropWhile (fun c => decide (c ≠ '\x7d'))
    if tailLen.isEmpty then none else some ⟨tailLen.reverse⟩

/-- The text massaging of `parse_ai_json_comments` before `json.loads`:
strip, unwrap accidental code fences, extract the brace-delimited region. -/
def preprocessText (text : String) : String :=
  let s := pyStrip text
  let s :=
    if pyStartsWith s "```" && pyEndsWith s "```" then
      afterFirstNewline (pyStripChar backquote s)
    else s
  match extractBraced s with
  | some sub => sub
  | none => s

/-- Embedding of `parse_ai_json_comments` (`app/utils.py`); `loads` stands for the
external `json.loads`, `none` for its parse failure (the only exception the
function catches). -/
def parse_ai_json_comments (loads : String → Option JValue) (text : String) :
    Except String (List Candidate) :=
  if text = "" then .ok []
  else
    match loads (preprocessText text) with
    | none => .ok []
    | some obj => commentsOfJson obj

/-- A model reply whose `new_line` field is a non-numeric string. -/
def c6Input : String :=
  "\x7b\"comments\": [\x7b\"new_path\": \"a.py\", \"new_line\": \"abc\", \"body\": \"x\"\x7d]\x7d"

/-- The decoded form of `c6Input`. -/
def c6Json : JValue :=
  .jobj [("comments", .jarr [.jobj
    [("new_path", .jstr "a.py"), ("new_line", .jstr "abc"), ("body", .jstr "x")]])]

/-- A `json.loads` stand-in defined at exactly the decoded input. -/
def c6Loads : String → Option JValue :=
  fun s => if s = c6Input then some c6Json else none

/-! Section: Association-list lemmas -/

lemma pyDictInsert_mem {α β : Type} [DecidableEq α] (d : List (α × β)) (k : α) (v : β)
    (kv : α × β) : kv ∈ pyDictInsert d k v → kv ∈ d ∨ kv = (k, v) := by
  induction d with
  | nil =>
    intro h
    simp only [pyDictInsert, List.mem_singleton] at h
    exact Or.inr h
  | cons hd tl ih =>
    obtain ⟨k', v'⟩ := hd
    intro h
    by_cases hk : k' = k
    · simp only [pyDictInsert, if_pos hk, List.mem_cons] at h
      rcases h with h | h
      · exact Or.inr h
      · exact Or.inl (List.mem_cons_of_mem _ h)
    · simp only [pyDictInsert, if_neg hk, List.mem_cons] at h
      rcases h with h | h
      · exact Or.inl (by simp [h])
      · rcases ih h with h' | h'
        · exact Or.inl (List.mem_cons_of_mem _ h')
        · exact Or.inr h'

lemma pyDictInsert_of_not_mem {α β : Type} [DecidableEq α] {d : List (α × β)} {k : α}
    (v : β) : k ∉ d.map Prod.fst → pyDictInsert d k v = d ++ [(k, v)] := by
  induction d with
  | nil => intro _; rfl
  | cons hd tl ih =>
    obtain ⟨k', v'⟩ := hd
    intro h
    simp only [List.map_cons, List.mem_cons] at h
    push_neg at h
    simp only [pyDictInsert, if_neg (Ne.symm h.1)]
    rw [ih h.2]
    simp

lemma pyDictInsert_keys {α β : Type} [DecidableEq α] (d : List (α × β)) (k : α) (v : β) :
    (pyDictInsert d k v).map Prod.fst = d.map Prod.fst ∨
    (pyDictInsert d k v).map Prod.fst = d.map Prod.fst ++ [k] := by
  induction d with
  | nil => exact Or.inr (by simp [pyDictInsert])
  | cons hd tl ih =>
    obtain ⟨k', v'⟩ := hd
    by_cases hk : k' = k
    · simp only [pyDictInsert, if_pos hk]
      exact Or.inl (by simp [hk])
    · simp only [pyDictInsert, if_neg hk]
      rcases ih with h | h
      · exact Or.inl (by simp [h])
      · exact Or.inr (by simp [h])

lemma pyDictGet_isSome_of_mem {α β : Type} [DecidableEq α] {d : List (α × β)}
    {kv : α × β} : kv ∈ d → ∃ v, pyDictGet d kv.1 = some v := by
  induction d with
  | nil => intro h; simp at h
  | cons hd tl ih =>
    obtain ⟨k', v'⟩ := hd
    intro h
    by_cases hk : k' = kv.1
    · exact ⟨v', by simp [pyDictGet, hk]⟩
    · simp only [pyDictGet, if_neg hk]
      rcases List.mem_cons.mp h with h' | h'
      · exact absurd (congrArg Prod.fst h').symm hk
      · exact ih h'

lemma pyDictGet_of_nodup {α β : Type} [DecidableEq α] {d : List (α × β)} {kv : α × β} :
    (d.map Prod.fst).Nodup → kv ∈ d → pyDictGet d kv.1 = some kv.2 := by
  induction d with
  | nil => intro _ h; simp at h
  | cons hd tl ih =>
    obtain ⟨k', v'⟩ := hd
    intro hnd h
    simp only [List.map_cons, List.nodup_cons] at hnd
    rcases List.mem_cons.mp h with h' | h'
    · subst h'
      simp [pyDictGet]
    · have hne : k' ≠ kv.1 := by
        intro he
        exact hnd.1 (he ▸ List.mem_map_of_mem Prod.fst h')
      simp only [pyDictGet, if_neg hne]
      exact ih hnd.2 h'

lemma getD_ne_nil {β : Type} {o : Option (List β)} (h : o.getD [] ≠ []) :
    o = some (o.getD []) := by
  cases o with
  | none => simp at h
  | some v => rfl

/-! Section: String-prefix lemmas -/

lemma isPrefixOf_cons_of_ne {a b : Char} {as bs : List Char} (h : a ≠ b) :
    List.isPrefixOf (a :: as) (b :: bs) = false := by
  have hb : (a == b) = false := beq_eq_false_iff_ne.mpr h
  simp [List.isPrefixOf, hb]

lemma pyStartsWith_backslash {l : String} (h : pyStartsWith l "\\" = true) :
    pyStartsWith l "@@" = false ∧ pyStartsWith l "+" = false ∧
    pyStartsWith l "-" = false ∧ pyStartsWith l " " = false := by
  unfold pyStartsWith at h ⊢
  cases hd : l.data with
  | nil =>
    rw [hd] at h
    exact absurd h (by decide)
  | cons c rest =>
    rw [hd] at h
    have hc : c = '\\' := by
      rw [show ("\\").data = ['\\'] from rfl] at h
      have := (by simpa [List.isPrefixOf] using h : '\\' = c)
      exact this.symm
    subst hc
    refine ⟨?_, ?_, ?_, ?_⟩
    · rw [show ("@@").data = ['@', '@'] from rfl]
      exact isPrefixOf_cons_of_ne (by decide)
    · rw [show ("+").data = ['+'] from rfl]
      exact isPrefixOf_cons_of_ne (by decide)
    · rw [show ("-").data = ['-'] from rfl]
      exact isPrefixOf_cons_of_ne (by decide)
    · rw [show (" ").data = [' '] from rfl]
      exact isPrefixOf_cons_of_ne (by decide)

/-! Section: C4 -/

lemma diffStep_backslash (record : List (Nat × String) → Nat → String → List (Nat × String))
    (st : EnumSt) (l : String) (h : pyStartsWith l "\\" = true) :
    diffStep record st l = st := by
  obtain ⟨h1, h2, h3, h4⟩ := pyStartsWith_backslash h
  cases hnc : st.new_cursor with
  | none =>
    unfold diffStep
    simp [h1, hnc]
  | some k =>
    unfold diffStep
    simp [h1, h2, h3, h4, h, hnc]

lemma enumLines_drop_backslash (pre post : List String) (l : String)
    (h : pyStartsWith l "\\" = true) :
    enumLines (pre ++ l :: post) = enumLines (pre ++ post) := by
  unfold enumLines
  rw [List.foldl_append, List.foldl_append, List.foldl_cons, diffStep_backslash _ _ _ h]

/-- C4: counterexample.  The claim says a backslash (no-newline) line
advances the new-file cursor like a context line, so in the diff below the
added line `+b` would be keyed `3`.  The parser skips the marker: `+b` is
keyed `2` and the map has no key `3`. -/
theorem C4_counterexample :
    enumerate_added_new_lines "@@ -1,0 +1,2 @@\n+a\n\\ No newline at end of file\n+b" =
      [(1, "a"), (2, "b")] ∧
    pyDictGet
      (enumerate_added_new_lines "@@ -1,0 +1,2 @@\n+a\n\\ No newline at end of file\n+b")
      3 = none := ⟨by decide, by decide⟩

/-- C4 (amended): in `enumerate_added_new_lines` a line starting with a
backslash leaves the scanning state — in particular the new-file cursor —
unchanged, so any added line appearing after such a marker is keyed by the
same new-file line number as if the marker line were absent. -/
theorem C4_no_newline_skipped :
    (∀ (st : EnumSt) (l : String), pyStartsWith l "\\" = true →
        diffStep (fun d k v => pyDictInsert d k v) st l = st) ∧
    (∀ (pre post : List String) (l : String), pyStartsWith l "\\" = true →
        enumLines (pre ++ l :: post) = enumLines (pre ++ post)) ∧
    enumerate_added_new_lines "@@ -1,0 +1,2 @@\n+a\n\\ No newline at end of file\n+b" =
      enumerate_added_new_lines "@@ -1,0 +1,2 @@\n+a\n+b" :=
  ⟨fun st l h => diffStep_backslash _ st l h,
   enumLines_drop_backslash,
   by decide⟩

/-- Witness for C4: the no-newline marker line is dropped from a concrete
scan. -/
theorem C4_witness :
    enumLines (["@@ -1,0 +1,2 @@", "+a"] ++ "\\ No newline at end of file" :: ["+b"]) =
      enumLines (["@@ -1,0 +1,2 @@", "+a"] ++ ["+b"]) :=
  C4_no_newline_skipped.2.1 ["@@ -1,0 +1,2 @@", "+a"] ["+b"]
    "\\ No newline at end of file" (by decide)

/-! Section: C10 -/

lemma pyDictInsert_map_snd (d : List (Nat × Nat)) (k v : Nat) :
    (pyDictInsert d k v).map (fun kv => (kv.1, kv.2 + 1)) =
      pyDictInsert (d.map (fun kv => (kv.1, kv.2 + 1))) k (v + 1) := by
  induction d with
  | nil => rfl
  | cons hd tl ih =>
    obtain ⟨k', v'⟩ := hd
    by_cases hk : k' = k
    · simp [pyDictInsert, hk]
    · simp [pyDictInsert, hk, ih]

lemma uStep_not_header {m : List (Nat × Nat)} {p k : Nat} {l : String}
    (hl : pyStartsWith l "@@" = false) :
    Utils.posStep ⟨m, p, some k, true⟩ l =
      (if pyStartsWith l "+" && !pyStartsWith l "+++" then
        ⟨pyDictInsert m k (p + 1), p + 1, some (k + 1), true⟩
      else if pyStartsWith l " " || pyStartsWith l "\\" then
        ⟨m, p + 1, some (k + 1), true⟩
      else ⟨m, p + 1, some k, true⟩ : Utils.PosSt) := by
  unfold Utils.posStep
  simp [hl]

lemma gStep_not_header {m : List (Nat × Nat)} {p k : Nat} {l : String}
    (hl : pyStartsWith l "@@" = false) :
    GithubServices.posStep ⟨m, p, some k⟩ l =
      (if pyStartsWith l "+" && !pyStartsWith l "+++" then
        ⟨pyDictInsert m k (p + 1), p + 1, some (k + 1)⟩
      else if pyStartsWith l " " || pyStartsWith l "\\" then
        ⟨m, p + 1, some (k + 1)⟩
      else ⟨m, p + 1, some k⟩ : GithubServices.PosSt) := by
  unfold GithubServices.posStep
  simp [hl]

lemma pos_lockstep : ∀ (ls : List String), (∀ l ∈ ls, pyStartsWith l "@@" = false) →
    ∀ (m : List (Nat × Nat)) (p k : Nat),
    ls.foldl GithubServices.posStep ⟨m.map (fun kv => (kv.1, kv.2 + 1)), p + 1, some k⟩ =
      ⟨(ls.foldl Utils.posStep ⟨m, p, some k, true⟩).mapping.map (fun kv => (kv.1, kv.2 + 1)),
       (ls.foldl Utils.posStep ⟨m, p, some k, true⟩).position + 1,
       (ls.foldl Utils.posStep ⟨m, p, some k, true⟩).new_cursor⟩ := by
  intro ls
  induction ls with
  | nil => intro _ m p k; rfl
  | cons l rest ih =>
    intro hno m p k
    have hl : pyStartsWith l "@@" = false := hno l (List.mem_cons_self _ _)
    have hrest : ∀ x ∈ rest, pyStartsWith x "@@" = false :=
      fun x hx => hno x (List.mem_cons_of_mem _ hx)
    rw [List.foldl_cons, List.foldl_cons, uStep_not_header hl, gStep_not_header hl]
    by_cases hp : (pyStartsWith l "+" && !pyStartsWith l "+++") = true
    · rw [if_pos hp, if_pos hp, ← pyDictInsert_map_snd m k (p + 1)]
      exact ih hrest (pyDictInsert m k (p + 1)) (p + 1) (k + 1)
    · rw [if_neg hp, if_neg hp]
      by_cases hs : (pyStartsWith l " " || pyStartsWith l "\\") = true
      · rw [if_pos hs, if_pos hs]
        exact ih hrest m (p + 1) (k + 1)
      · rw [if_neg hs, if_neg hs]
        exact ih hrest m (p + 1) k

/-- C10: counterexample.  Already on a one-hunk, one-line patch the two
implementations of `compute_patch_newline_to_position` disagree: the one in
`app/utils.py` starts counting below the first header (position 1 for the
added line), the one in `app/github_services.py` counts the header line
itself (position 2). -/
theorem C10_counterexample :
    Utils.compute_patch_newline_to_position "@@ -1,0 +1,1 @@\n+a" = [(1, 1)] ∧
    GithubServices.compute_patch_newline_to_position "@@ -1,0 +1,1 @@\n+a" = [(1, 2)] ∧
    Utils.compute_patch_newline_to_position "@@ -1,0 +1,1 @@\n+a" ≠
      GithubServices.compute_patch_newline_to_position "@@ -1,0 +1,1 @@\n+a" :=
  ⟨by decide, by decide, by decide⟩

/-- C10 (amended): for every patch that starts with a valid hunk header and
contains no further header line, the two implementations return maps with
the same key set, the position recorded by the `github_services` version
being exactly one greater than the one recorded by the `utils` version. -/
theorem C10_offset_equivalence (patch : String) (hd : String) (rest : List String)
    (o n : Nat) (hsplit : pySplitlines patch = hd :: rest)
    (hstart : pyStartsWith hd "@@" = true)
    (hparse : parseHunkHeader hd = some (o, n))
    (hrest : ∀ l ∈ rest, pyStartsWith l "@@" = false) :
    GithubServices.compute_patch_newline_to_position patch =
      (Utils.compute_patch_newline_to_position patch).map (fun kv => (kv.1, kv.2 + 1)) := by
  have hne : patch ≠ "" := by
    intro he
    rw [he, show pySplitlines "" = [] from rfl] at hsplit
    exact List.noConfusion hsplit
  unfold GithubServices.compute_patch_newline_to_position
    Utils.compute_patch_newline_to_position
  rw [if_neg hne, if_neg hne, hsplit, List.foldl_cons, List.foldl_cons]
  have hu : Utils.posStep ⟨[], 0, none, false⟩ hd = ⟨[], 0, some n, true⟩ := by
    unfold Utils.posStep
    simp [hstart, hparse]
  have hg : GithubServices.posStep ⟨[], 0, none⟩ hd = ⟨[], 1, some n⟩ := by
    unfold GithubServices.posStep
    simp [hstart, hparse]
  rw [hu, hg]
  exact congrArg GithubServices.PosSt.mapping (pos_lockstep rest hrest [] 0 n)

/-- Witness for C10: the one-greater correspondence on a concrete two-line
hunk. -/
theorem C10_witness :
    GithubServices.compute_patch_newline_to_position "@@ -1,0 +1,2 @@\n+a\n x\n+b" =
      (Utils.compute_patch_newline_to_position "@@ -1,0 +1,2 @@\n+a\n x\n+b").map
        (fun kv => (kv.1, kv.2 + 1)) :=
  C10_offset_equivalence "@@ -1,0 +1,2 @@\n+a\n x\n+b" "@@ -1,0 +1,2 @@"
    ["+a", " x", "+b"] 1 1 (by decide) (by decide) (by decide) (by decide)

/-! Section: C3 -/

lemma dictFold_snoc (ps : List (Nat × String)) (k : Nat) (v : String) :
    dictFold (ps ++ [(k, v)]) = pyDictInsert (dictFold ps) k v := by
  simp [dictFold, List.foldl_append]

lemma enum_pairs_lockstep :
    ∀ (ls : List String) (nc oc : Option Nat) (ps : List (Nat × String)),
    ls.foldl (diffStep (fun d k v => pyDictInsert d k v)) ⟨dictFold ps, nc, oc⟩ =
      ⟨dictFold ((ls.foldl (diffStep (fun d k v => d ++ [(k, v)])) ⟨ps, nc, oc⟩).mapping),
       (ls.foldl (diffStep (fun d k v => d ++ [(k, v)])) ⟨ps, nc, oc⟩).new_cursor,
       (ls.foldl (diffStep (fun d k v => d ++ [(k, v)])) ⟨ps, nc, oc⟩).old_cursor⟩ := by
  intro ls
  induction ls with
  | nil => intro nc oc ps; rfl
  | cons l ls ih =>
    intro nc oc ps
    rw [List.foldl_cons, List.foldl_cons]
    by_cases h1 : pyStartsWith l "@@" = true
    · cases h2 : parseHunkHeader l with
      | none =>
        have e1 : diffStep (fun d k v => pyDictInsert d k v) ⟨dictFold ps, nc, oc⟩ l =
            ⟨dictFold ps, none, none⟩ := by
          unfold diffStep
          simp [h1, h2]
        have e2 : diffStep (fun d k v => d ++ [(k, v)]) ⟨ps, nc, oc⟩ l =
            ⟨ps, none, none⟩ := by
          unfold diffStep
          simp [h1, h2]
        rw [e1, e2]
        exact ih none none ps
      | some pr =>
        obtain ⟨o, n⟩ := pr
        have e1 : diffStep (fun d k v => pyDictInsert d k v) ⟨dictFold ps, nc, oc⟩ l =
            ⟨dictFold ps, some n, some o⟩ := by
          unfold diffStep
          simp [h1, h2]
        have e2 : diffStep (fun d k v => d ++ [(k, v)]) ⟨ps, nc, oc⟩ l =
            ⟨ps, some n, some o⟩ := by
          unfold diffStep
          simp [h1, h2]
        rw [e1, e2]
        exact ih (some n) (some o) ps
    · cases nc with
      | none =>
        have e1 : diffStep (fun d k v => pyDictInsert d k v) ⟨dictFold ps, none, oc⟩ l =
            ⟨dictFold ps, none, oc⟩ := by
          unfold diffStep
          simp [h1]
        have e2 : diffStep (fun d k v => d ++ [(k, v)]) ⟨ps, none, oc⟩ l =
            ⟨ps, none, oc⟩ := by
          unfold diffStep
          simp [h1]
        rw [e1, e2]
        exact ih none oc ps
      | some k =>
        by_cases h3 : (pyStartsWith l "+" && !pyStartsWith l "+++") = true
        · have e1 : diffStep (fun d k v => pyDictInsert d k v) ⟨dictFold ps, some k, oc⟩ l =
              ⟨pyDictInsert (dictFold ps) k (pyDrop l 1), some (k + 1), oc⟩ := by
            unfold diffStep
            simp [h1, h3]
          have e2 : diffStep (fun d k v => d ++ [(k, v)]) ⟨ps, some k, oc⟩ l =
              ⟨ps ++ [(k, pyDrop l 1)], some (k + 1), oc⟩ := by
            unfold diffStep
            simp [h1, h3]
          rw [e1, e2, ← dictFold_snoc ps k (pyDrop l 1)]
          exact ih (some (k + 1)) oc (ps ++ [(k, pyDrop l 1)])
        · by_cases h4 : (pyStartsWith l "-" && !pyStartsWith l "---") = true
          · have e1 : diffStep (fun d k v => pyDictInsert d k v) ⟨dictFold ps, some k, oc⟩ l =
                ⟨dictFold ps, some k, oc.map (· + 1)⟩ := by
              unfold diffStep
              simp [h1, h3, h4]
            have e2 : diffStep (fun d k v => d ++ [(k, v)]) ⟨ps, some k, oc⟩ l =
                ⟨ps, some k, oc.map (· + 1)⟩ := by
              unfold diffStep
              simp [h1, h3, h4]
            rw [e1, e2]
            exact ih (some k) (oc.map (· + 1)) ps
          · by_cases h5 : pyStartsWith l " " = true
            · have e1 : diffStep (fun d k v => pyDictInsert d k v) ⟨dictFold ps, some k, oc⟩ l =
                  ⟨dictFold ps, some (k + 1), oc.map (· + 1)⟩ := by
                unfold diffStep
                simp [h1, h3, h4, h5]
              have e2 : diffStep (fun d k v => d ++ [(k, v)]) ⟨ps, some k, oc⟩ l =
                  ⟨ps, some (k + 1), oc.map (· + 1)⟩ := by
                unfold diffStep
                simp [h1, h3, h4, h5]
              rw [e1, e2]
              exact ih (some (k + 1)) (oc.map (· + 1)) ps
            · by_cases h6 : pyStartsWith l "\\" = true
              · have e1 : diffStep (fun d k v => pyDictInsert d k v) ⟨dictFold ps, some k, oc⟩ l =
                    ⟨dictFold ps, some k, oc⟩ := by
                  unfold diffStep
                  simp [h1, h3, h4, h5, h6]
                have e2 : diffStep (fun d k v => d ++ [(k, v)]) ⟨ps, some k, oc⟩ l =
                    ⟨ps, some k, oc⟩ := by
                  unfold diffStep
                  simp [h1, h3, h4, h5, h6]
                rw [e1, e2]
                exact ih (some k) oc ps
              · have e1 : diffStep (fun d k v => pyDictInsert d k v) ⟨dictFold ps, some k, oc⟩ l =
                    ⟨dictFold ps, some (k + 1), oc⟩ := by
                  unfold diffStep
                  simp [h1, h3, h4, h5, h6]
                have e2 : diffStep (fun d k v => d ++ [(k, v)]) ⟨ps, some k, oc⟩ l =
                    ⟨ps, some (k + 1), oc⟩ := by
                  unfold diffStep
                  simp [h1, h3, h4, h5, h6]
                rw [e1, e2]
                exact ih (some (k + 1)) oc ps

lemma enumerate_eq_dictFold (s : String) :
    enumerate_added_new_lines s = dictFold (addedPairs s) := by
  unfold enumerate_added_new_lines addedPairs enumLines
  by_cases h : s = ""
  · simp [h, dictFold]
  · simp only [if_neg h]
    exact congrArg EnumSt.mapping (enum_pairs_lockstep (pySplitlines s) none none [])

lemma foldInsert_of_nodup :
    ∀ (ps d : List (Nat × String)), (d.map Prod.fst ++ ps.map Prod.fst).Nodup →
    ps.foldl (fun d kv => pyDictInsert d kv.1 kv.2) d = d ++ ps := by
  intro ps
  induction ps with
  | nil => intro d _; simp
  | cons kv ps ih =>
    intro d hnd
    obtain ⟨k, v⟩ := kv
    rw [List.foldl_cons]
    have hk : k ∉ d.map Prod.fst := by
      intro hmem
      exact List.disjoint_of_nodup_append hnd hmem (by simp)
    rw [pyDictInsert_of_not_mem v hk]
    have hnd' : ((d ++ [(k, v)]).map Prod.fst ++ ps.map Prod.fst).Nodup := by
      simp only [List.map_append, List.map_cons, List.map_nil] at hnd ⊢
      simpa [List.append_assoc] using hnd
    rw [ih (d ++ [(k, v)]) hnd']
    simp

lemma dictFold_of_nodup (ps : List (Nat × String)) (h : (ps.map Prod.fst).Nodup) :
    dictFold ps = ps := by
  have := foldInsert_of_nodup ps [] (by simpa using h)
  simpa [dictFold] using this

lemma enumLines_mapping_from_plus :
    ∀ (ls : List String) (st : EnumSt) (kv : Nat × String),
    kv ∈ (ls.foldl (diffStep (fun d k v => pyDictInsert d k v)) st).mapping →
    kv ∈ st.mapping ∨ ∃ l ∈ ls, pyStartsWith l "+" = true ∧
      pyStartsWith l "+++" = false ∧ kv.2 = pyDrop l 1 := by
  intro ls
  induction ls with
  | nil => intro st kv h; exact Or.inl h
  | cons l ls ih =>
    intro st kv h
    rw [List.foldl_cons] at h
    rcases ih _ kv h with h' | ⟨l', hl', hcond⟩
    · have step_mem : kv ∈ st.mapping ∨
          (pyStartsWith l "+" = true ∧ pyStartsWith l "+++" = false ∧ kv.2 = pyDrop l 1) := by
        by_cases h1 : pyStartsWith l "@@" = true
        · have e : (diffStep (fun d k v => pyDictInsert d k v) st l).mapping = st.mapping := by
            unfold diffStep
            cases h2 : parseHunkHeader l with
            | none => simp [h1, h2]
            | some pr => obtain ⟨o, n⟩ := pr; simp [h1, h2]
          rw [e] at h'
          exact Or.inl h'
        · cases hnc : st.new_cursor with
          | none =>
            have e : diffStep (fun d k v => pyDictInsert d k v) st l = st := by
              unfold diffStep
              simp [h1, hnc]
            rw [e] at h'
            exact Or.inl h'
          | some k =>
            by_cases h3 : (pyStartsWith l "+" && !pyStartsWith l "+++") = true
            · have e : (diffStep (fun d k v => pyDictInsert d k v) st l).mapping =
                  pyDictInsert st.mapping k (pyDrop l 1) := by
                unfold diffStep
                simp [h1, h3, hnc]
              rw [e] at h'
              rcases pyDictInsert_mem _ _ _ _ h' with hm | hm
              · exact Or.inl hm
              · rw [Bool.and_eq_true, Bool.not_eq_true'] at h3
                exact Or.inr ⟨h3.1, h3.2, by rw [hm]⟩
            · have e : (diffStep (fun d k v => pyDictInsert d k v) st l).mapping =
                  st.mapping := by
                unfold diffStep
                by_cases h4 : (pyStartsWith l "-" && !pyStartsWith l "---") = true
                · simp [h1, h3, h4, hnc]
                · by_cases h5 : pyStartsWith l " " = true
                  · simp [h1, h3, h4, h5, hnc]
                  · by_cases h6 : pyStartsWith l "\\" = true
                    · simp [h1, h3, h4, h5, h6, hnc]
                    · simp [h1, h3, h4, h5, h6, hnc]
              rw [e] at h'
              exact Or.inl h'
      rcases step_mem with hm | hm
      · exact Or.inl hm
      · exact Or.inr ⟨l, by simp, hm⟩
    · exact Or.inr ⟨l', List.mem_cons_of_mem _ hl', hcond⟩

lemma enumerate_mem_plus (s : String) (kv : Nat × String)
    (h : kv ∈ enumerate_added_new_lines s) :
    ∃ l ∈ pySplitlines s, pyStartsWith l "+" = true ∧ pyStartsWith l "+++" = false ∧
      kv.2 = pyDrop l 1 := by
  unfold enumerate_added_new_lines enumLines at h
  by_cases hs : s = ""
  · rw [if_pos hs] at h
    simp at h
  · rw [if_neg hs] at h
    rcases enumLines_mapping_from_plus (pySplitlines s) ⟨[], none, none⟩ kv h with h' | h'
    · simp at h'
    · exact h'

/-- C3: confirmed.  On diff text whose added lines carry pairwise distinct
new-file line numbers (the case for every well-formed unified diff, where
they strictly increase), the map built by `enumerate_added_new_lines` is
exactly the recorded sequence of added lines — its key set is the set of
added new-file line numbers, each appearing once.  Unconditionally, every
value of the map is the text of some `+` (not `+++`) line of the input with
the leading `+` removed, and the documented scenario evaluates to
`{2: "b"}`. -/
theorem C3_line_map_added_lines :
    (∀ s : String, ((addedPairs s).map Prod.fst).Nodup →
        enumerate_added_new_lines s = addedPairs s) ∧
    (∀ (s : String) (kv : Nat × String), kv ∈ enumerate_added_new_lines s →
        ∃ l ∈ pySplitlines s, pyStartsWith l "+" = true ∧ pyStartsWith l "+++" = false ∧
          kv.2 = pyDrop l 1) ∧
    enumerate_added_new_lines "@@ -1,2 +1,3 @@\n a\n+b\n c" = [(2, "b")] :=
  ⟨fun s h => (enumerate_eq_dictFold s).trans (dictFold_of_nodup _ h),
   enumerate_mem_plus, by decide⟩

/-- Witness for C3: both hypotheses discharged on the documented scenario. -/
theorem C3_witness :
    enumerate_added_new_lines "@@ -1,2 +1,3 @@\n a\n+b\n c" =
      addedPairs "@@ -1,2 +1,3 @@\n a\n+b\n c" ∧
    ∃ l ∈ pySplitlines "@@ -1,2 +1,3 @@\n a\n+b\n c",
      pyStartsWith l "+" = true ∧ pyStartsWith l "+++" = false ∧
        ((2 : Nat), "b").2 = pyDrop l 1 :=
  ⟨C3_line_map_added_lines.1 _ (by decide),
   C3_line_map_added_lines.2.1 _ (2, "b") (by decide)⟩

/-! Section: C2 -/

/-- C2: refuted evaluation.  The claim states that the position counter of
`compute_patch_newline_to_position` in `app/utils.py` counts every physical
line after the first hunk header, later `@@` header lines included, so in the
two-hunk patch below the added line `+b` (two lines strictly between it and
the first header) would get position `1 + 2 = 3`.  The code skips every `@@`
line before touching the counter: `+b` gets position `2`. -/
theorem C2_position_skips_headers :
    Utils.compute_patch_newline_to_position "@@ -1,1 +1,1 @@\n+a\n@@ -5,1 +5,1 @@\n+b" =
      [(1, 1), (5, 2)] ∧
    pyDictGet
      (Utils.compute_patch_newline_to_position "@@ -1,1 +1,1 @@\n+a\n@@ -5,1 +5,1 @@\n+b")
      5 ≠ some 3 := by
  constructor
  · decide
  · decide

/-! Section: C5: resolver characterization -/

lemma pyMinByNe_spec (f : Nat → Nat) :
    ∀ (xs : List Nat) (x : Nat), ∃ pre post,
      x :: xs = pre ++ pyMinByNe f x xs :: post ∧
      (∀ y ∈ x :: xs, f (pyMinByNe f x xs) ≤ f y) ∧
      (∀ y ∈ pre, f (pyMinByNe f x xs) < f y) := by
  intro xs
  induction xs with
  | nil =>
    intro x
    exact ⟨[], [], rfl, by simp [pyMinByNe], by simp⟩
  | cons y ys ih =>
    intro x
    have hstep : pyMinByNe f x (y :: ys) = pyMinByNe f (if f y < f x then y else x) ys := rfl
    by_cases h : f y < f x
    · obtain ⟨pre, post, heq, hmin, hpre⟩ := ih y
      have hm : pyMinByNe f x (y :: ys) = pyMinByNe f y ys := by rw [hstep, if_pos h]
      refine ⟨x :: pre, post, ?_, ?_, ?_⟩
      · rw [hm, List.cons_append, ← heq]
      · intro z hz
        rw [hm]
        rcases List.mem_cons.mp hz with rfl | hz'
        · exact le_of_lt (lt_of_le_of_lt (hmin y (by simp)) h)
        · exact hmin z hz'
      · intro z hz
        rw [hm]
        rcases List.mem_cons.mp hz with rfl | hz'
        · exact lt_of_le_of_lt (hmin y (by simp)) h
        · exact hpre z hz'
    · obtain ⟨pre, post, heq, hmin, hpre⟩ := ih x
      have hm : pyMinByNe f x (y :: ys) = pyMinByNe f x ys := by rw [hstep, if_neg h]
      have hxy : f x ≤ f y := le_of_not_lt h
      cases pre with
      | nil =>
        rw [List.nil_append] at heq
        have hminx : pyMinByNe f x ys = x := ((List.cons.inj heq).1).symm
        refine ⟨[], y :: ys, ?_, ?_, by simp⟩
        · rw [hm, hminx, List.nil_append]
        · intro z hz
          rw [hm, hminx]
          rcases List.mem_cons.mp hz with rfl | hz'
          · exact le_refl _
          · rcases List.mem_cons.mp hz' with rfl | hz''
            · exact hxy
            · have := hmin z (List.mem_cons_of_mem _ hz'')
              rw [hminx] at this
              exact this
      | cons p ps =>
        rw [List.cons_append] at heq
        have hpx : p = x := ((List.cons.inj heq).1).symm
        have hys : ys = ps ++ pyMinByNe f x ys :: post := (List.cons.inj heq).2
        refine ⟨x :: y :: ps, post, ?_, ?_, ?_⟩
        · rw [hm, List.cons_append, List.cons_append, ← hys]
        · intro z hz
          rw [hm]
          rcases List.mem_cons.mp hz with rfl | hz'
          · exact hmin z (by simp)
          · rcases List.mem_cons.mp hz' with rfl | hz''
            · exact le_of_lt (lt_of_lt_of_le (hpx ▸ hpre p (by simp)) hxy)
            · exact hmin z (List.mem_cons_of_mem _ hz'')
        · intro z hz
          rw [hm]
          rcases List.mem_cons.mp hz with rfl | hz'
          · exact hpx ▸ hpre p (by simp)
          · rcases List.mem_cons.mp hz' with rfl | hz''
            · exact lt_of_lt_of_le (hpx ▸ hpre p (by simp)) hxy
            · exact hpre z (List.mem_cons_of_mem _ hz'')

lemma pyMinByNe_mem (f : Nat → Nat) (x : Nat) (xs : List Nat) :
    pyMinByNe f x xs ∈ x :: xs := by
  obtain ⟨pre, post, heq, _, _⟩ := pyMinByNe_spec f xs x
  rw [heq]
  exact List.mem_append.mpr (Or.inr (List.mem_cons_self _ _))

lemma fuzzyLoop_cons (ratio : String → String → ℚ) (target : String) (ln : Nat)
    (txt : String) (rest : List (Nat × String)) (best : Option Nat) (bR : ℚ) :
    fuzzyLoop ratio target ((ln, txt) :: rest) best bR =
      if 23/25 < ratio (pyStrip txt) target ∧ bR < ratio (pyStrip txt) target then
        fuzzyLoop ratio target rest (some ln) (ratio (pyStrip txt) target)
      else fuzzyLoop ratio target rest best bR := rfl

lemma fuzzyLoop_stable (ratio : String → String → ℚ) (target : String) :
    ∀ (l : List (Nat × String)) (best : Option Nat) (bR : ℚ),
    (∀ kv ∈ l, ratio (pyStrip kv.2) target ≤ bR) →
    fuzzyLoop ratio target l best bR = best := by
  intro l
  induction l with
  | nil => intro best bR _; rfl
  | cons kv l ih =>
    intro best bR h
    obtain ⟨ln, txt⟩ := kv
    have hle := h (ln, txt) (by simp)
    rw [fuzzyLoop_cons, if_neg (fun hc => absurd hc.2 (not_lt.mpr hle))]
    exact ih best bR (fun kv hkv => h kv (List.mem_cons_of_mem _ hkv))

lemma fuzzyLoop_below (ratio : String → String → ℚ) (target : String) :
    ∀ (l : List (Nat × String)) (best : Option Nat) (bR : ℚ),
    (∀ kv ∈ l, ratio (pyStrip kv.2) target ≤ 23/25) →
    fuzzyLoop ratio target l best bR = best := by
  intro l
  induction l with
  | nil => intro best bR _; rfl
  | cons kv l ih =>
    intro best bR h
    obtain ⟨ln, txt⟩ := kv
    have hle := h (ln, txt) (by simp)
    rw [fuzzyLoop_cons, if_neg (fun hc => absurd hc.1 (not_lt.mpr hle))]
    exact ih best bR (fun kv hkv => h kv (List.mem_cons_of_mem _ hkv))

lemma fuzzyLoop_hit (ratio : String → String → ℚ) (target : String) (ln : Nat)
    (txt : String) (post : List (Nat × String))
    (ht : 23/25 < ratio (pyStrip txt) target)
    (hpost : ∀ kv ∈ post, ratio (pyStrip kv.2) target ≤ ratio (pyStrip txt) target) :
    ∀ (pre : List (Nat × String)) (best : Option Nat) (bR : ℚ),
    bR < ratio (pyStrip txt) target →
    (∀ kv ∈ pre, ratio (pyStrip kv.2) target < ratio (pyStrip txt) target) →
    fuzzyLoop ratio target (pre ++ (ln, txt) :: post) best bR = some ln := by
  intro pre
  induction pre with
  | nil =>
    intro best bR hbR _
    rw [List.nil_append, fuzzyLoop_cons, if_pos ⟨ht, hbR⟩]
    exact fuzzyLoop_stable ratio target post (some ln) _ hpost
  | cons kv0 pre ih =>
    intro best bR hbR hpre
    obtain ⟨l0, t0⟩ := kv0
    have h0 : ratio (pyStrip t0) target < ratio (pyStrip txt) target :=
      hpre (l0, t0) (by simp)
    rw [List.cons_append, fuzzyLoop_cons]
    by_cases hc : 23/25 < ratio (pyStrip t0) target ∧ bR < ratio (pyStrip t0) target
    · rw [if_pos hc]
      exact ih (some l0) _ h0 (fun kv hkv => hpre kv (List.mem_cons_of_mem _ hkv))
    · rw [if_neg hc]
      exact ih best bR hbR (fun kv hkv => hpre kv (List.mem_cons_of_mem _ hkv))

lemma fuzzyLoop_mem (ratio : String → String → ℚ) (target : String) :
    ∀ (l : List (Nat × String)) (best : Option Nat) (bR : ℚ) (ln : Nat),
    fuzzyLoop ratio target l best bR = some ln →
    best = some ln ∨ ln ∈ l.map Prod.fst := by
  intro l
  induction l with
  | nil => intro best bR ln h; exact Or.inl h
  | cons kv l ih =>
    intro best bR ln h
    obtain ⟨k, t⟩ := kv
    rw [fuzzyLoop_cons] at h
    by_cases hc : 23/25 < ratio (pyStrip t) target ∧ bR < ratio (pyStrip t) target
    · rw [if_pos hc] at h
      rcases ih _ _ _ h with h' | h'
      · exact Or.inr (by simp [Option.some.inj h'])
      · exact Or.inr (List.mem_cons_of_mem _ h')
    · rw [if_neg hc] at h
      rcases ih _ _ _ h with h' | h'
      · exact Or.inl h'
      · exact Or.inr (List.mem_cons_of_mem _ h')

lemma find_best_line_empty_target (ratio : String → String → ℚ)
    (added : List (Nat × String)) (desired : Int) (hint body : String)
    (h : resolveTarget hint body = "") :
    find_best_line ratio added desired hint body = none := by
  simp only [find_best_line]
  rw [if_pos h]

lemma find_best_line_exact (ratio : String → String → ℚ)
    (added : List (Nat × String)) (desired : Int) (hint body : String) (c : Nat)
    (cs : List Nat) (hne : resolveTarget hint body ≠ "")
    (hc : exactCandidates added hint body = c :: cs) :
    find_best_line ratio added desired hint body =
      if desired > 0 then
        some (pyMinByNe (fun ln => ((ln : Int) - desired).natAbs) c cs)
      else some c := by
  simp only [find_best_line]
  rw [if_neg hne, hc]

lemma find_best_line_fuzzy (ratio : String → String → ℚ)
    (added : List (Nat × String)) (desired : Int) (hint body : String)
    (hne : resolveTarget hint body ≠ "")
    (hc : exactCandidates added hint body = []) :
    find_best_line ratio added desired hint body =
      fuzzyLoop ratio (resolveTarget hint body) added none 0 := by
  simp only [find_best_line]
  rw [if_neg hne, hc]

lemma exactCandidates_sub (added : List (Nat × String)) (hint body : String) :
    ∀ ln ∈ exactCandidates added hint body, ln ∈ added.map Prod.fst := by
  intro ln hln
  unfold exactCandidates at hln
  obtain ⟨kv, hkv, hfst⟩ := List.mem_map.mp hln
  exact hfst ▸ List.mem_map_of_mem _ (List.mem_of_mem_filter hkv)

/-- C5: counterexample.  The diff below (overlapping hunks, as the parser
tolerates them) produces the line map `{6: "x", 4: "x"}` in that insertion
order.  Both keys are exact matches for the anchor `x` and both are at
distance 1 from the desired line 5; the claim says the tie goes to the
smallest key, `4`, but `min` keeps the first minimal element in map order
and the resolver returns `6`. -/
theorem C5_counterexample :
    enumerate_added_new_lines "@@ -1,0 +6,1 @@\n+x\n@@ -9,0 +4,1 @@\n+x" =
      [(6, "x"), (4, "x")] ∧
    find_best_line ratioZero
      (enumerate_added_new_lines "@@ -1,0 +6,1 @@\n+x\n@@ -9,0 +4,1 @@\n+x")
      5 "x" "bug" = some 6 ∧
    ((4 : Int) - 5).natAbs = ((6 : Int) - 5).natAbs :=
  ⟨by decide, by decide, by decide⟩

/-- C5 (amended): the resolver fails on an empty anchor; with exact
candidates present and `desired_line > 0` it returns the candidate
numerically closest to the desired line, ties going to the earliest
candidate in map order (the smallest key whenever the map's keys are in
increasing order); with `desired_line ≤ 0` it returns the first exact
candidate; only with no exact candidate does it consult the similarity
ratio, returning the earliest maximum-ratio line exactly when that maximum
exceeds `0.92`, and failing otherwise.  Scenario 2 resolves to `9` for every
similarity function. -/
theorem C5_resolver_behavior :
    (∀ (ratio : String → String → ℚ) (added : List (Nat × String)) (desired : Int)
        (hint body : String),
      (resolveTarget hint body = "" →
        find_best_line ratio added desired hint body = none) ∧
      (∀ c cs, resolveTarget hint body ≠ "" →
        exactCandidates added hint body = c :: cs →
        (desired > 0 → ∃ ln pre post,
          find_best_line ratio added desired hint body = some ln ∧
          c :: cs = pre ++ ln :: post ∧
          (∀ l ∈ c :: cs, ((ln : Int) - desired).natAbs ≤ ((l : Int) - desired).natAbs) ∧
          (∀ l ∈ pre, ((ln : Int) - desired).natAbs < ((l : Int) - desired).natAbs)) ∧
        (¬ desired > 0 → find_best_line ratio added desired hint body = some c)) ∧
      (resolveTarget hint body ≠ "" → exactCandidates added hint body = [] →
        ((∀ kv ∈ added, ratio (pyStrip kv.2) (resolveTarget hint body) ≤ 23/25) →
          find_best_line ratio added desired hint body = none) ∧
        (∀ ln txt pre post, added = pre ++ (ln, txt) :: post →
          23/25 < ratio (pyStrip txt) (resolveTarget hint body) →
          (∀ kv ∈ added, ratio (pyStrip kv.2) (resolveTarget hint body) ≤
            ratio (pyStrip txt) (resolveTarget hint body)) →
          (∀ kv ∈ pre, ratio (pyStrip kv.2) (resolveTarget hint body) <
            ratio (pyStrip txt) (resolveTarget hint body)) →
          find_best_line ratio added desired hint body = some ln))) ∧
    (∀ ratio : String → String → ℚ,
      find_best_line ratio [(5, "return x+1"), (9, "return x")] 5 "return x" "bug" =
        some 9) := by
  constructor
  · intro ratio added desired hint body
    refine ⟨find_best_line_empty_target ratio added desired hint body, ?_, ?_⟩
    · intro c cs hne hc
      constructor
      · intro hdes
        obtain ⟨pre, post, heq, hmin, hpre⟩ :=
          pyMinByNe_spec (fun ln => ((ln : Int) - desired).natAbs) cs c
        refine ⟨pyMinByNe (fun ln => ((ln : Int) - desired).natAbs) c cs, pre, post,
          ?_, heq, hmin, hpre⟩
        rw [find_best_line_exact ratio added desired hint body c cs hne hc, if_pos hdes]
      · intro hdes
        rw [find_best_line_exact ratio added desired hint body c cs hne hc, if_neg hdes]
    · intro hne hc
      constructor
      · intro hall
        rw [find_best_line_fuzzy ratio added desired hint body hne hc]
        exact fuzzyLoop_below ratio _ added none 0 hall
      · intro ln txt pre post hadd hgt hmax hpre
        rw [find_best_line_fuzzy ratio added desired hint body hne hc, hadd]
        refine fuzzyLoop_hit ratio _ ln txt post hgt ?_ pre none 0 ?_ hpre
        · intro kv hkv
          exact hmax kv (hadd ▸ List.mem_append.mpr (Or.inr (List.mem_cons_of_mem _ hkv)))
        · exact lt_trans (by norm_num) hgt
  · intro ratio
    rw [find_best_line_exact ratio [(5, "return x+1"), (9, "return x")] 5 "return x"
      "bug" 9 [] (by decide) (by decide)]
    rw [if_pos (by decide : (5 : Int) > 0)]
    rfl

/-- Witness for C5: the exact-match branch with hypotheses discharged on
Scenario 2. -/
theorem C5_witness :
    ∃ ln pre post,
      find_best_line ratioZero [(5, "return x+1"), (9, "return x")] 5 "return x" "bug" =
        some ln ∧
      9 :: ([] : List Nat) = pre ++ ln :: post ∧
      (∀ l ∈ 9 :: ([] : List Nat),
        ((ln : Int) - 5).natAbs ≤ ((l : Int) - 5).natAbs) ∧
      (∀ l ∈ pre, ((ln : Int) - 5).natAbs < ((l : Int) - 5).natAbs) :=
  (((C5_resolver_behavior.1 ratioZero [(5, "return x+1"), (9, "return x")] 5 "return x"
      "bug").2.1 9 [] (by decide) (by decide)).1 (by decide))

/-! Section: Pipeline decomposition -/

lemma validateLoop_cons (ratio : String → String → ℚ)
    (pa : List (String × List (Nat × String))) (pp : List (String × String))
    (pf : String) (c : Candidate) (cs : List Candidate)
    (acc : List ValidatedComment) :
    validateLoop ratio pa pp pf (c :: cs) acc =
      match processCandidate ratio pa pp pf c with
      | none => validateLoop ratio pa pp pf cs acc
      | some v =>
        if MAX_INLINE_COMMENTS ≤ (acc ++ [v]).length then acc ++ [v]
        else validateLoop ratio pa pp pf cs (acc ++ [v]) := rfl

lemma validateLoop_eq_take (ratio : String → String → ℚ)
    (pa : List (String × List (Nat × String))) (pp : List (String × String))
    (pf : String) :
    ∀ (cs : List Candidate) (acc : List ValidatedComment),
    acc.length < MAX_INLINE_COMMENTS →
    validateLoop ratio pa pp pf cs acc =
      (acc ++ cs.filterMap (processCandidate ratio pa pp pf)).take MAX_INLINE_COMMENTS := by
  intro cs
  induction cs with
  | nil =>
    intro acc hacc
    rw [show validateLoop ratio pa pp pf [] acc = acc from rfl, List.filterMap_nil,
      List.append_nil, List.take_of_length_le (le_of_lt hacc)]
  | cons c cs ih =>
    intro acc hacc
    rw [validateLoop_cons]
    cases hpc : processCandidate ratio pa pp pf c with
    | none =>
      dsimp only
      rw [List.filterMap_cons, hpc]
      dsimp only
      exact ih acc hacc
    | some v =>
      dsimp only
      rw [List.filterMap_cons, hpc]
      dsimp only
      by_cases hge : MAX_INLINE_COMMENTS ≤ (acc ++ [v]).length
      · rw [if_pos hge]
        have hlen : (acc ++ [v]).length = MAX_INLINE_COMMENTS := by
          rw [List.length_append, List.length_singleton] at hge ⊢
          simp only [MAX_INLINE_COMMENTS] at hacc hge ⊢
          omega
        rw [List.append_cons acc v (List.filterMap (processCandidate ratio pa pp pf) cs),
          ← hlen, List.take_left]
      · rw [if_neg hge]
        rw [ih (acc ++ [v]) (lt_of_not_ge hge), List.append_cons, List.append_assoc]
        simp

lemma validate_eq_take (ratio : String → String → ℚ) (cands : List Candidate)
    (changes : List Change) (platform : String) :
    validate_ai_comments_against_changes ratio cands changes platform =
      (cands.filterMap (processCandidate ratio (buildPathToAdded changes platform)
        (buildPathToPatch changes platform) platform)).take MAX_INLINE_COMMENTS := by
  unfold validate_ai_comments_against_changes
  rw [validateLoop_eq_take _ _ _ _ cands [] (by simp [MAX_INLINE_COMMENTS])]
  rw [List.nil_append]

/-! Section: C9 -/

/-- C9: confirmed.  The pipeline's output never exceeds
`MAX_INLINE_COMMENTS` comments nor the number of input candidates, and it is
exactly the first `MAX_INLINE_COMMENTS` of the per-candidate results taken
in input order — once the cap is reached every later candidate is
dropped. -/
theorem C9_output_cap :
    ∀ (ratio : String → String → ℚ) (cands : List Candidate) (changes : List Change)
      (platform : String),
    (validate_ai_comments_against_changes ratio cands changes platform).length ≤
      MAX_INLINE_COMMENTS ∧
    (validate_ai_comments_against_changes ratio cands changes platform).length ≤
      cands.length ∧
    validate_ai_comments_against_changes ratio cands changes platform =
      (cands.filterMap (processCandidate ratio (buildPathToAdded changes platform)
        (buildPathToPatch changes platform) platform)).take MAX_INLINE_COMMENTS := by
  intro ratio cands changes platform
  refine ⟨?_, ?_, validate_eq_take ratio cands changes platform⟩
  · rw [validate_eq_take]
    rw [List.length_take]
    exact min_le_left _ _
  · rw [validate_eq_take]
    rw [List.length_take]
    exact le_trans (min_le_right _ _) (List.length_filterMap_le _ _)

/-! Section: C1 -/

lemma find_best_line_mem (ratio : String → String → ℚ) (added : List (Nat × String))
    (desired : Int) (hint body : String) (ln : Nat)
    (h : find_best_line ratio added desired hint body = some ln) :
    ln ∈ added.map Prod.fst := by
  by_cases hne : resolveTarget hint body = ""
  · rw [find_best_line_empty_target ratio added desired hint body hne] at h
    cases h
  · cases hc : exactCandidates added hint body with
    | nil =>
      rw [find_best_line_fuzzy ratio added desired hint body hne hc] at h
      rcases fuzzyLoop_mem ratio _ added none 0 ln h with h' | h'
      · cases h'
      · exact h'
    | cons c cs =>
      rw [find_best_line_exact ratio added desired hint body c cs hne hc] at h
      by_cases hdes : desired > 0
      · rw [if_pos hdes] at h
        apply exactCandidates_sub added hint body
        rw [hc, ← Option.some.inj h]
        exact pyMinByNe_mem _ c cs
      · rw [if_neg hdes] at h
        apply exactCandidates_sub added hint body
        rw [hc, ← Option.some.inj h]
        exact List.mem_cons_self _ _

lemma lookupAddedMap_get (ptm : List (String × List (Nat × String))) (path : String)
    (h : (lookupAddedMap ptm path).2 ≠ []) :
    pyDictGet ptm (lookupAddedMap ptm path).1 = some (lookupAddedMap ptm path).2 := by
  simp only [lookupAddedMap] at h ⊢
  by_cases h0 : (pyDictGet ptm path).getD [] = []
  · cases hf : ptm.find? (fun kv => pyEndsWith kv.1 path || pyEndsWith path kv.1) with
    | none =>
      rw [if_pos h0, hf] at h
      dsimp only at h
      exact absurd rfl h
    | some kv =>
      rw [if_pos h0] at h ⊢
      rw [hf] at h
      dsimp only at h ⊢
      exact getD_ne_nil h
  · rw [if_neg h0] at h ⊢
    exact getD_ne_nil h0

lemma processCandidate_lines (ratio : String → String → ℚ)
    (pa : List (String × List (Nat × String))) (pp : List (String × String))
    (pf : String) (c : Candidate) (v : ValidatedComment)
    (h : processCandidate ratio pa pp pf c = some v) :
    ∃ m, pyDictGet pa v.new_path = some m ∧ v.new_line ∈ m.map Prod.fst := by
  simp only [processCandidate] at h
  by_cases h1 : c.new_path = "" ∨ pyStrip c.body = ""
  · rw [if_pos h1] at h
    cases h
  · rw [if_neg h1] at h
    by_cases h2 : (lookupAddedMap pa c.new_path).2 = []
    · rw [if_pos h2] at h
      cases h
    · rw [if_neg h2] at h
      cases h3 : find_best_line ratio (lookupAddedMap pa c.new_path).2 c.new_line
          (pyStrip c.code) (pyStrip c.body) with
      | none =>
        rw [h3] at h
        dsimp only at h
        exact Option.noConfusion h
      | some best =>
        rw [h3] at h
        dsimp only at h
        have hmem : best ∈ (lookupAddedMap pa c.new_path).2.map Prod.fst :=
          find_best_line_mem ratio _ c.new_line (pyStrip c.code) (pyStrip c.body) best h3
        have hget := lookupAddedMap_get pa c.new_path h2
        by_cases h4 : pf = "github"
        · rw [if_pos h4] at h
          cases h5 : Utils.compute_github_position_from_patch
              ((pyDictGet pp (lookupAddedMap pa c.new_path).1).getD "") best with
          | none =>
            rw [h5] at h
            dsimp only at h
            exact Option.noConfusion h
          | some pos =>
            rw [h5] at h
            dsimp only at h
            refine ⟨(lookupAddedMap pa c.new_path).2, ?_, ?_⟩
            · rw [← Option.some.inj h]
              exact hget
            · rw [← Option.some.inj h]
              exact hmem
        · rw [if_neg h4] at h
          refine ⟨(lookupAddedMap pa c.new_path).2, ?_, ?_⟩
          · rw [← Option.some.inj h]
            exact hget
          · rw [← Option.some.inj h]
            exact hmem

/-- C1: confirmed.  The resolver only ever returns a key of the line map it
was given (or `None`), and consequently every emitted comment's `new_line`
is a key of the added-line map stored, in the per-path dictionary built from
the changes, under the very path the comment carries. -/
theorem C1_resolver_in_map :
    (∀ (ratio : String → String → ℚ) (added : List (Nat × String)) (desired : Int)
        (hint body : String) (ln : Nat),
      find_best_line ratio added desired hint body = some ln →
      ln ∈ added.map Prod.fst) ∧
    (∀ (ratio : String → String → ℚ) (cands : List Candidate) (changes : List Change)
        (platform : String) (c : ValidatedComment),
      c ∈ validate_ai_comments_against_changes ratio cands changes platform →
      ∃ m, pyDictGet (buildPathToAdded changes platform) c.new_path = some m ∧
        c.new_line ∈ m.map Prod.fst) := by
  constructor
  · exact find_best_line_mem
  · intro ratio cands changes platform c hc
    rw [validate_eq_take] at hc
    obtain ⟨cand, _, hpc⟩ := List.mem_filterMap.mp (List.take_subset _ _ hc)
    exact processCandidate_lines ratio _ _ platform cand c hpc

/-- Witness for C1: both parts applied on a concrete resolved comment. -/
theorem C1_witness :
    (5 : Nat) ∈ ([(5, "x")] : List (Nat × String)).map Prod.fst ∧
    ∃ m, pyDictGet
        (buildPathToAdded [gitlabChange "f.py" "@@ -1,0 +1,1 @@\n+x"] "gitlab")
        (ValidatedComment.mk "f.py" 1 none "bug").new_path = some m ∧
      (ValidatedComment.mk "f.py" 1 none "bug").new_line ∈ m.map Prod.fst :=
  ⟨C1_resolver_in_map.1 ratioZero [(5, "x")] 5 "x" "b" 5 (by decide),
   C1_resolver_in_map.2 ratioZero [⟨"f.py", 1, "bug", "x"⟩]
     [gitlabChange "f.py" "@@ -1,0 +1,1 @@\n+x"] "gitlab"
     ⟨"f.py", 1, none, "bug"⟩ (by decide)⟩

/-! Section: C8 -/

lemma processCandidate_github_position (ratio : String → String → ℚ)
    (pa : List (String × List (Nat × String))) (pp : List (String × String))
    (c : Candidate) (v : ValidatedComment)
    (h : processCandidate ratio pa pp "github" c = some v) :
    ∃ p, v.position = some p ∧
      pyDictGet (Utils.compute_patch_newline_to_position
        ((pyDictGet pp v.new_path).getD "")) v.new_line = some p := by
  simp only [processCandidate] at h
  by_cases h1 : c.new_path = "" ∨ pyStrip c.body = ""
  · rw [if_pos h1] at h
    cases h
  · rw [if_neg h1] at h
    by_cases h2 : (lookupAddedMap pa c.new_path).2 = []
    · rw [if_pos h2] at h
      cases h
    · rw [if_neg h2] at h
      cases h3 : find_best_line ratio (lookupAddedMap pa c.new_path).2 c.new_line
          (pyStrip c.code) (pyStrip c.body) with
      | none =>
        rw [h3] at h
        dsimp only at h
        exact Option.noConfusion h
      | some best =>
        rw [h3] at h
        simp only [if_true] at h
        cases h5 : Utils.compute_github_position_from_patch
            ((pyDictGet pp (lookupAddedMap pa c.new_path).1).getD "") best with
        | none =>
          rw [h5] at h
          dsimp only at h
          exact Option.noConfusion h
        | some pos =>
          rw [h5] at h
          dsimp only at h
          refine ⟨pos, ?_, ?_⟩
          · rw [← Option.some.inj h]
          · rw [← Option.some.inj h]
            unfold Utils.compute_github_position_from_patch at h5
            exact h5

/-- C8: confirmed.  In GitHub (absolute-addressing) mode every emitted
comment carries a `position`, and that position is exactly the value the
patch's position map assigns to the comment's resolved line; a candidate
whose resolved line has no entry in the position map yields no comment at
all. -/
theorem C8_position_required :
    ∀ (ratio : String → String → ℚ) (cands : List Candidate) (changes : List Change)
      (c : ValidatedComment),
    c ∈ validate_ai_comments_against_changes ratio cands changes "github" →
    ∃ p, c.position = some p ∧
      pyDictGet (Utils.compute_patch_newline_to_position
        ((pyDictGet (buildPathToPatch changes "github") c.new_path).getD ""))
        c.new_line = some p := by
  intro ratio cands changes c hc
  rw [validate_eq_take] at hc
  obtain ⟨cand, _, hpc⟩ := List.mem_filterMap.mp (List.take_subset _ _ hc)
  exact processCandidate_github_position ratio _ _ cand c hpc

/-- Witness for C8: a concrete GitHub-mode run emitting one positioned
comment. -/
theorem C8_witness :
    ∃ p, (ValidatedComment.mk "f.py" 1 (some 1) "bug").position = some p ∧
      pyDictGet (Utils.compute_patch_newline_to_position
        ((pyDictGet (buildPathToPatch [githubFileChange "f.py" "@@ -1,0 +1,1 @@\n+x"]
          "github") (ValidatedComment.mk "f.py" 1 (some 1) "bug").new_path).getD ""))
        (ValidatedComment.mk "f.py" 1 (some 1) "bug").new_line = some p :=
  C8_position_required ratioZero [⟨"f.py", 1, "bug", "x"⟩]
    [githubFileChange "f.py" "@@ -1,0 +1,1 @@\n+x"]
    ⟨"f.py", 1, some 1, "bug"⟩ (by decide)

/-! Section: C7 -/

lemma pyDictInsert_keys_cases {α β : Type} [DecidableEq α] (d : List (α × β)) (k : α)
    (v : β) :
    (k ∈ d.map Prod.fst ∧ (pyDictInsert d k v).map Prod.fst = d.map Prod.fst) ∨
    (k ∉ d.map Prod.fst ∧ (pyDictInsert d k v).map Prod.fst = d.map Prod.fst ++ [k]) := by
  induction d with
  | nil => exact Or.inr ⟨by simp, by simp [pyDictInsert]⟩
  | cons hd tl ih =>
    obtain ⟨k', v'⟩ := hd
    by_cases hk : k' = k
    · refine Or.inl ⟨by simp [hk], ?_⟩
      simp [pyDictInsert, hk]
    · rcases ih with ⟨hin, hkeys⟩ | ⟨hnin, hkeys⟩
      · refine Or.inl ⟨List.mem_cons_of_mem _ hin, ?_⟩
        simp [pyDictInsert, hk, hkeys]
      · refine Or.inr ⟨?_, ?_⟩
        · simp only [List.map_cons, List.mem_cons]
          push_neg
          exact ⟨Ne.symm hk, hnin⟩
        · simp [pyDictInsert, hk, hkeys]

lemma pyDictInsert_nodup {α β : Type} [DecidableEq α] {d : List (α × β)} {k : α} {v : β}
    (h : (d.map Prod.fst).Nodup) : ((pyDictInsert d k v).map Prod.fst).Nodup := by
  rcases pyDictInsert_keys_cases d k v with ⟨_, he⟩ | ⟨hnin, he⟩
  · rw [he]
    exact h
  · rw [he]
    exact List.Nodup.append h (List.nodup_singleton k) (List.disjoint_singleton.mpr hnin)

lemma foldl_insert_nodup {γ : Type} (step : List (String × γ) → Change → List (String × γ))
    (hstep : ∀ m ch, (m.map Prod.fst).Nodup → ((step m ch).map Prod.fst).Nodup) :
    ∀ (cs : List Change) (m : List (String × γ)), (m.map Prod.fst).Nodup →
      ((cs.foldl step m).map Prod.fst).Nodup := by
  intro cs
  induction cs with
  | nil => intro m h; exact h
  | cons ch cs ih =>
    intro m h
    rw [List.foldl_cons]
    exact ih (step m ch) (hstep m ch h)

lemma buildPathToAdded_nodup (changes : List Change) (platform : String) :
    ((buildPathToAdded changes platform).map Prod.fst).Nodup := by
  unfold buildPathToAdded
  by_cases h1 : platform = "gitlab"
  · rw [if_pos h1]
    refine foldl_insert_nodup _ ?_ changes [] (by simp)
    intro m ch h
    dsimp only
    by_cases hp : gitlabPath ch = ""
    · rw [if_pos hp]
      exact h
    · rw [if_neg hp]
      exact pyDictInsert_nodup h
  · rw [if_neg h1]
    by_cases h2 : platform = "github"
    · rw [if_pos h2]
      refine foldl_insert_nodup _ ?_ changes [] (by simp)
      intro m ch h
      dsimp only
      by_cases hp : githubPath ch = ""
      · rw [if_pos hp]
        exact h
      · rw [if_neg hp]
        by_cases hpa : ch.patch = ""
        · rw [if_pos hpa]
          exact h
        · rw [if_neg hpa]
          exact pyDictInsert_nodup h
    · rw [if_neg h2]
      simp

/-- C7: counterexample.  The candidate path `a/f.py` is a key of the
per-path map (its file has no added lines, so its line map is empty), yet
the pipeline does not use that map: because `if not added_map` treats an
empty dict like a missing one it falls through to the suffix fallback,
resolves against `z/a/f.py` and emits a comment there, where the claim
requires the candidate to be validated against the exact path's (empty) map
and hence dropped. -/
theorem C7_counterexample :
    pyDictGet (buildPathToAdded
      [gitlabChange "z/a/f.py" "@@ -1,0 +1,1 @@\n+x", gitlabChange "a/f.py" ""]
      "gitlab") "a/f.py" = some [] ∧
    validate_ai_comments_against_changes ratioZero [⟨"a/f.py", 1, "bug", "x"⟩]
      [gitlabChange "z/a/f.py" "@@ -1,0 +1,1 @@\n+x", gitlabChange "a/f.py" ""]
      "gitlab" = [⟨"z/a/f.py", 1, none, "bug"⟩] :=
  ⟨by decide, by decide⟩

/-- C7 (amended): the pipeline uses the exact path's line map whenever that
path is a key bound to a non-empty map; the first-match suffix fallback is
applied when the exact path is absent or its map is empty, and a candidate
whose selected map is empty (or that matches no known path) is dropped. -/
theorem C7_path_selection :
    ∀ (changes : List Change) (platform : String) (path : String),
    (∀ m, pyDictGet (buildPathToAdded changes platform) path = some m → m ≠ [] →
      lookupAddedMap (buildPathToAdded changes platform) path = (path, m)) ∧
    ((pyDictGet (buildPathToAdded changes platform) path = none ∨
      pyDictGet (buildPathToAdded changes platform) path = some []) →
      (∀ kv, (buildPathToAdded changes platform).find?
          (fun kv => pyEndsWith kv.1 path || pyEndsWith path kv.1) = some kv →
        lookupAddedMap (buildPathToAdded changes platform) path = (kv.1, kv.2)) ∧
      ((buildPathToAdded changes platform).find?
          (fun kv => pyEndsWith kv.1 path || pyEndsWith path kv.1) = none →
        lookupAddedMap (buildPathToAdded changes platform) path = (path, []))) ∧
    (∀ (ratio : String → String → ℚ) (pp : List (String × String)) (c : Candidate),
      c.new_path ≠ "" → pyStrip c.body ≠ "" →
      (lookupAddedMap (buildPathToAdded changes platform) c.new_path).2 = [] →
      processCandidate ratio (buildPathToAdded changes platform) pp platform c = none) := by
  intro changes platform path
  refine ⟨?_, ?_, ?_⟩
  · intro m hm hne
    simp only [lookupAddedMap, hm, Option.getD_some]
    rw [if_neg hne]
  · intro h0
    have hget : (pyDictGet (buildPathToAdded changes platform) path).getD [] = [] := by
      rcases h0 with h0 | h0 <;> rw [h0] <;> rfl
    constructor
    · intro kv hf
      have hkv : kv ∈ buildPathToAdded changes platform := List.mem_of_find?_eq_some hf
      have hv := pyDictGet_of_nodup (buildPathToAdded_nodup changes platform) hkv
      simp only [lookupAddedMap]
      rw [hget, if_pos rfl, hf]
      show (kv.1, (pyDictGet (buildPathToAdded changes platform) kv.1).getD []) = (kv.1, kv.2)
      rw [hv]
      rfl
    · intro hf
      simp only [lookupAddedMap]
      rw [hget, if_pos rfl, hf]
  · intro ratio pp c hpath hbody hsel
    simp only [processCandidate]
    rw [if_neg (not_or.mpr ⟨hpath, hbody⟩), if_pos hsel]

/-- Witness for C7: each branch of the amended selection discharged on
concrete maps. -/
theorem C7_witness :
    lookupAddedMap
      (buildPathToAdded [gitlabChange "f.py" "@@ -1,0 +1,1 @@\n+x"] "gitlab") "f.py" =
      ("f.py", [(1, "x")]) ∧
    processCandidate ratioZero
      (buildPathToAdded [gitlabChange "f.py" ""] "gitlab") [] "gitlab"
      ⟨"f.py", 1, "bug", "x"⟩ = none :=
  ⟨(C7_path_selection [gitlabChange "f.py" "@@ -1,0 +1,1 @@\n+x"] "gitlab" "f.py").1
     [(1, "x")] (by decide) (by decide),
   (C7_path_selection [gitlabChange "f.py" ""] "gitlab" "f.py").2.2 ratioZero []
     ⟨"f.py", 1, "bug", "x"⟩ (by decide) (by decide) (by decide)⟩

/-! Section: C6 -/

/-- C6: refuted (code bug).  `parse_ai_json_comments` promises a (possibly
empty) list for every input, but the uncaught `int(c.get("new_line", 0) or 0)`
coercion raises `ValueError` when `new_line` is a non-numeric string: any
`json.loads` that decodes the input to its JSON value makes the function
propagate the error. -/
theorem C6_parse_raises (loads : String → Option JValue)
    (h : loads c6Input = some c6Json) :
    parse_ai_json_comments loads c6Input =
      .error "ValueError: invalid literal for int() with base 10: abc" := by
  unfold parse_ai_json_comments
  rw [if_neg (by decide), show preprocessText c6Input = c6Input from by decide, h]
  rfl

/-- Witness for C6: the failing run at the concrete `json.loads` stand-in. -/
theorem C6_witness :
    parse_ai_json_comments c6Loads c6Input =
      .error "ValueError: invalid literal for int() with base 10: abc" :=
  C6_parse_raises c6Loads (by simp [c6Loads])
